import Mathlib

/-!
Verification development for the Halide runtime support library
(`src/runtime/HalideRuntime.h`) and tutorial lesson 5
(`tutorial/lesson_05_scheduling_1.cpp`).

The repository ships only the runtime *header* (declarations plus contract
documentation) and the tutorial; the runtime implementations
(thread pool, memoization cache, device buffer management, tracing) are not
part of the source tree.  Following the header contracts and the
specification, those components are modelled here as executable Lean
functions; the tutorial's scheduled loop nest is embedded directly from its
"equivalent C" code.
-/

namespace HalideRuntime

/-! ## Thread pool scheduler (`halide_do_par_for`)

`extern int halide_do_par_for(void *user_context,
                              int (*f)(void *ctx, int, uint8_t *),
                              int min, int size, uint8_t *closure);`

The callback receives a single loop index, so each dispatched sub-range is
one index of the half-open range `[min, min+size)`.
-/

/-- Modelled from the spec: the thread-pool implementation behind
`halide_do_par_for` is not in the source tree (only its declaration in
`HalideRuntime.h`).  Per the spec, `execute` partitions `[min, min+extent)`
into sub-ranges, one per callback invocation; with the header's callback
signature `int (*f)(void *ctx, int, uint8_t *)` each invocation receives a
single index.  This lists the dispatched indices; `extent ≤ 0` dispatches
nothing. -/
def dispatchedIndices (mn extent : Int) : List Int :=
  if extent ≤ 0 then []
  else (List.range extent.toNat).map (fun i : Nat => mn + (i : Int))

/-- Modelled from the spec: every dispatched sub-range runs to completion
(no early cancellation), recorded as the list of `(index, returned code)`
pairs in dispatch order. -/
def par_for_run (f : Int → Int) (mn extent : Int) : List (Int × Int) :=
  (dispatchedIndices mn extent).map (fun i => (i, f i))

/-- Modelled from the spec: `halide_do_par_for` "Should return zero if all
the jobs return zero, or an arbitrarily chosen return value from one of the
jobs otherwise" (header doc).  All jobs run; afterwards the aggregate
status is 0 when every job returned 0, else one of the non-zero codes. -/
def halide_do_par_for (f : Int → Int) (mn extent : Int) : Int :=
  match (par_for_run f mn extent).find? (fun p => p.2 ≠ 0) with
  | some p => p.2
  | none => 0

/-- Membership in the dispatched index list is exactly membership in the
half-open range. -/
theorem mem_dispatchedIndices (mn extent p : Int) :
    p ∈ dispatchedIndices mn extent ↔ mn ≤ p ∧ p < mn + extent := by
  unfold dispatchedIndices
  by_cases h : extent ≤ 0
  · simp only [if_pos h, List.not_mem_nil, false_iff]
    omega
  · simp only [if_neg h, List.mem_map, List.mem_range]
    constructor
    · rintro ⟨i, hi, rfl⟩
      omega
    · rintro ⟨h1, h2⟩
      exact ⟨(p - mn).toNat, by omega, by omega⟩

/-- The dispatched indices are pairwise distinct. -/
theorem dispatchedIndices_nodup (mn extent : Int) :
    (dispatchedIndices mn extent).Nodup := by
  unfold dispatchedIndices
  by_cases h : extent ≤ 0
  · simp [h]
  · simp only [if_neg h]
    refine List.Nodup.map ?_ (List.nodup_range _)
    intro a b hab
    simp only at hab
    omega

/-- C1: For every call to the parallel-for primitive with `extent > 0`, the
sub-ranges dispatched to callback invocations partition the half-open range
`[min, min+extent)` exactly: every point of the range is covered by exactly
one dispatched sub-range (count 1), points outside are never dispatched
(count 0), so there is no gap, no overlap and no repetition. -/
theorem par_for_dispatch_partitions_range (mn extent p : Int) (h : 0 < extent) :
    ((mn ≤ p ∧ p < mn + extent) → (dispatchedIndices mn extent).count p = 1) ∧
    (¬(mn ≤ p ∧ p < mn + extent) → (dispatchedIndices mn extent).count p = 0) := by
  constructor
  · intro hp
    exact List.count_eq_one_of_mem (dispatchedIndices_nodup mn extent)
      ((mem_dispatchedIndices mn extent p).mpr hp)
  · intro hp
    exact List.count_eq_zero.mpr (fun hmem => hp ((mem_dispatchedIndices mn extent p).mp hmem))

/-- Witness for C1 at `min = 2`, `extent = 3`, point `p = 4`: the point is
dispatched exactly once. -/
theorem par_for_dispatch_partitions_range_witness :
    (dispatchedIndices 2 3).count 4 = 1 :=
  (par_for_dispatch_partitions_range 2 3 4 (by decide)).1 (by decide)

/-- The failure search over a run returns `none` exactly when every
recorded result code is 0. -/
theorem find_nonzero_none_iff (l : List (Int × Int)) :
    l.find? (fun q => q.2 ≠ 0) = none ↔ ∀ q ∈ l, q.2 = 0 := by
  simp [List.find?_eq_none]

/-- The failure search only ever returns a result with non-zero code. -/
theorem find_nonzero_some {l : List (Int × Int)} {q : Int × Int}
    (h : l.find? (fun q => q.2 ≠ 0) = some q) : q.2 ≠ 0 := by
  have := List.find?_some h
  simpa using this

/-- C2: if every dispatched invocation returns 0 then `halide_do_par_for`
returns 0 (and conversely); if some invocation returns non-zero, the result
is a non-zero code actually produced by one of the dispatched invocations;
and every dispatched sub-range runs to completion regardless of failures:
the completed run records one `(index, f index)` result for exactly the
dispatched index list. -/
theorem par_for_aggregates_status (f : Int → Int) (mn extent : Int) :
    (halide_do_par_for f mn extent = 0 ↔ ∀ q ∈ par_for_run f mn extent, q.2 = 0) ∧
    (halide_do_par_for f mn extent ≠ 0 →
      ∃ i ∈ dispatchedIndices mn extent, f i = halide_do_par_for f mn extent) ∧
    (par_for_run f mn extent).map Prod.fst = dispatchedIndices mn extent := by
  refine ⟨?_, ?_, ?_⟩
  · unfold halide_do_par_for
    rcases hfind : (par_for_run f mn extent).find? (fun q => q.2 ≠ 0) with _ | q
    · rw [hfind]
      simp only [true_iff]
      exact (find_nonzero_none_iff _).mp hfind
    · rw [hfind]
      have hq2 := find_nonzero_some hfind
      show q.2 = 0 ↔ _
      constructor
      · intro h0
        exact (hq2 h0).elim
      · intro hall
        exact hall q (List.mem_of_find?_eq_some hfind)
  · intro hne
    unfold halide_do_par_for at hne ⊢
    rcases hfind : (par_for_run f mn extent).find? (fun q => q.2 ≠ 0) with _ | q
    · rw [hfind] at hne
      simp at hne
    · rw [hfind]
      have hmem := List.mem_of_find?_eq_some hfind
      unfold par_for_run at hmem
      rcases List.mem_map.mp hmem with ⟨i, hi, hiq⟩
      refine ⟨i, hi, ?_⟩
      show f i = q.2
      rw [← hiq]
  · unfold par_for_run
    rw [List.map_map]
    exact List.map_id'' (fun a => rfl) _

/-- C3: for `extent ≤ 0`, no callback invocation occurs (nothing is
dispatched, nothing runs) and `halide_do_par_for` returns 0. -/
theorem par_for_nonpositive_extent_trivial (f : Int → Int) (mn extent : Int)
    (h : extent ≤ 0) :
    dispatchedIndices mn extent = [] ∧ par_for_run f mn extent = [] ∧
    halide_do_par_for f mn extent = 0 := by
  have hd : dispatchedIndices mn extent = [] := by
    unfold dispatchedIndices; simp [h]
  have hr : par_for_run f mn extent = [] := by
    unfold par_for_run; rw [hd]; rfl
  refine ⟨hd, hr, ?_⟩
  unfold halide_do_par_for
  rw [hr]
  rfl

/-- Witness for C3 at `f = id`, `min = 5`, `extent = -2`. -/
theorem par_for_nonpositive_extent_trivial_witness :
    dispatchedIndices 5 (-2) = [] ∧ par_for_run id 5 (-2) = [] ∧
    halide_do_par_for id 5 (-2) = 0 :=
  par_for_nonpositive_extent_trivial id 5 (-2) (by decide)

/-! ## Memoization cache

`halide_memoization_cache_set_size`, `halide_memoization_cache_lookup`,
`halide_memoization_cache_store` (`HalideRuntime.h`, lines 250-290). -/

/-- Modelled from the spec: the cache implementation (`cache.cpp`) is not in
the source tree.  A cache entry pairs an opaque caller-constructed byte key
with an independently copied ordered tuple of result-buffer contents, plus
its accounted byte size. -/
structure CacheEntry where
  key : List Nat
  data : List (List Nat)
  size : Nat
deriving DecidableEq

/-- Bytes accounted for a stored buffer tuple: the total number of payload
bytes. -/
def entrySize (data : List (List Nat)) : Nat := (data.map List.length).sum

/-- Modelled from the spec: the cache is a byte-key to buffer-tuple store
with a soft byte budget.  `entries` is kept in recency order, most recently
accessed first; the least recently accessed entry is last. -/
structure MemoCache where
  entries : List CacheEntry
  budget : Int

/-- Total bytes resident in a list of entries. -/
def totalSize (l : List CacheEntry) : Nat := (l.map CacheEntry.size).sum

/-- Modelled from the spec: `halide_memoization_cache_set_size` adjusts the
soft budget live; it is enforced lazily on the next store. -/
def halide_memoization_cache_set_size (n : Int) (c : MemoCache) : MemoCache :=
  { c with budget := n }

/-- One LRU eviction loop, fuelled to make the recursion structural: while
the resident total exceeds the budget and more than one entry remains, drop
the last (least recently accessed) entry.  Each step shortens the list, so
`l.length` fuel always suffices. -/
def evictLRUAux (b : Int) : Nat → List CacheEntry → List CacheEntry
  | 0, l => l
  | Nat.succ fuel, l =>
    if (totalSize l : Int) ≤ b ∨ l.length ≤ 1 then l
    else evictLRUAux b fuel l.dropLast

/-- Modelled from the spec: eviction after a store drops entries in strict
least-recently-used order (the back of the recency list) until the resident
total is within the budget or only the newly inserted entry (the front)
remains. -/
def evictLRU (b : Int) (l : List CacheEntry) : List CacheEntry :=
  evictLRUAux b l.length l

/-- Modelled from the spec: `halide_memoization_cache_lookup` matches the
key by exact byte equality; on hit it copies the cached payload out (the
returned `some data`) and refreshes the entry's recency; on miss it returns
`none`, leaving the caller's output buffers untouched and the cache
unchanged. -/
def halide_memoization_cache_lookup (k : List Nat) (c : MemoCache) :
    Option (List (List Nat)) × MemoCache :=
  match c.entries.find? (fun e => e.key = k) with
  | some e =>
      (some e.data, { c with entries := e :: c.entries.filter (fun x => ¬(x.key = k)) })
  | none => (none, c)

/-- Modelled from the spec: `halide_memoization_cache_store` copies the
buffer contents into a new entry (so later caller-side mutation cannot
affect the stored copy), replaces any prior entry under the same key, puts
the new entry at the front of the recency order, and then evicts in LRU
order until under budget or only the new entry remains. -/
def halide_memoization_cache_store (k : List Nat) (d : List (List Nat))
    (c : MemoCache) : MemoCache :=
  let e : CacheEntry := ⟨k, d, entrySize d⟩
  { c with
    entries := evictLRU c.budget (e :: c.entries.filter (fun x => ¬(x.key = k))) }

/-- Dropping the last element then taking `k ≤ length - 1` elements is the
same as taking them from the original list. -/
theorem take_dropLast_eq {α : Type} (l : List α) (k : Nat) (hk : k ≤ l.length - 1) :
    l.dropLast.take k = l.take k := by
  rw [List.dropLast_eq_take, List.take_take]
  congr 1
  omega

/-- The eviction loop removes a (possibly empty) least-recently-used suffix:
its result is an initial segment of the input, and it is nonempty when the
input is. -/
theorem evictLRUAux_eq_take (b : Int) (fuel : Nat) :
    ∀ l : List CacheEntry, l.length ≤ fuel → l ≠ [] →
      ∃ n, 1 ≤ n ∧ n ≤ l.length ∧ evictLRUAux b fuel l = l.take n := by
  induction fuel with
  | zero =>
    intro l hl hne
    exact absurd (List.length_eq_zero.mp (by omega)) hne
  | succ fuel ih =>
    intro l hl hne
    have hstep : evictLRUAux b (Nat.succ fuel) l =
        if (totalSize l : Int) ≤ b ∨ l.length ≤ 1 then l
        else evictLRUAux b fuel l.dropLast := rfl
    by_cases h : (totalSize l : Int) ≤ b ∨ l.length ≤ 1
    · refine ⟨l.length, ?_, le_refl _, ?_⟩
      · have : l.length ≠ 0 := fun hc => hne (List.length_eq_zero.mp hc)
        omega
      · rw [hstep, if_pos h, List.take_length]
    · have hlen2 : 2 ≤ l.length := by
        push_neg at h
        omega
      have hd : l.dropLast ≠ [] := by
        intro hc
        have := congrArg List.length hc
        simp only [List.length_dropLast, List.length_nil] at this
        omega
      have hdl : l.dropLast.length ≤ fuel := by
        simp only [List.length_dropLast]
        omega
      obtain ⟨n, h1, h2, heq⟩ := ih l.dropLast hdl hd
      rw [List.length_dropLast] at h2
      refine ⟨n, h1, by omega, ?_⟩
      rw [hstep, if_neg h, heq]
      exact take_dropLast_eq l n (by omega)

/-- After the eviction loop finishes (with enough fuel), either the
resident total is within the budget or a single entry remains. -/
theorem evictLRUAux_post (b : Int) (fuel : Nat) :
    ∀ l : List CacheEntry, l.length ≤ fuel →
      (totalSize (evictLRUAux b fuel l) : Int) ≤ b ∨
        (evictLRUAux b fuel l).length ≤ 1 := by
  induction fuel with
  | zero =>
    intro l hl
    have : l = [] := List.length_eq_zero.mp (by omega)
    subst this
    right
    simp [evictLRUAux]
  | succ fuel ih =>
    intro l hl
    have hstep : evictLRUAux b (Nat.succ fuel) l =
        if (totalSize l : Int) ≤ b ∨ l.length ≤ 1 then l
        else evictLRUAux b fuel l.dropLast := rfl
    by_cases h : (totalSize l : Int) ≤ b ∨ l.length ≤ 1
    · rw [hstep, if_pos h]
      exact h
    · rw [hstep, if_neg h]
      refine ih l.dropLast ?_
      simp only [List.length_dropLast]
      push_neg at h
      omega

/-- When the input is already within the budget no eviction happens. -/
theorem evictLRUAux_no_evict (b : Int) (fuel : Nat) (l : List CacheEntry)
    (h : (totalSize l : Int) ≤ b) : evictLRUAux b fuel l = l := by
  cases fuel with
  | zero => rfl
  | succ fuel =>
    show (if (totalSize l : Int) ≤ b ∨ l.length ≤ 1 then l
          else evictLRUAux b fuel l.dropLast) = l
    rw [if_pos (Or.inl h)]

/-- The eviction loop never lengthens the list. -/
theorem evictLRUAux_length_le (b : Int) (fuel : Nat) :
    ∀ l : List CacheEntry, (evictLRUAux b fuel l).length ≤ l.length := by
  induction fuel with
  | zero => intro l; exact le_refl _
  | succ fuel ih =>
    intro l
    have hstep : evictLRUAux b (Nat.succ fuel) l =
        if (totalSize l : Int) ≤ b ∨ l.length ≤ 1 then l
        else evictLRUAux b fuel l.dropLast := rfl
    by_cases h : (totalSize l : Int) ≤ b ∨ l.length ≤ 1
    · rw [hstep, if_pos h]
    · rw [hstep, if_neg h]
      calc (evictLRUAux b fuel l.dropLast).length ≤ l.dropLast.length := ih _
        _ ≤ l.length := by simp only [List.length_dropLast]; omega

/-- Eviction never over-evicts: whenever it removed anything, keeping even
one more entry (the least recently used one it dropped last) would still
have exceeded the budget. -/
theorem evictLRUAux_minimal (b : Int) (fuel : Nat) :
    ∀ l : List CacheEntry, l.length ≤ fuel →
      (evictLRUAux b fuel l).length < l.length →
      b < (totalSize (l.take ((evictLRUAux b fuel l).length + 1)) : Int) := by
  induction fuel with
  | zero =>
    intro l hl hlt
    have : l = [] := List.length_eq_zero.mp (by omega)
    subst this
    simp [evictLRUAux] at hlt
  | succ fuel ih =>
    intro l hl hlt
    have hstep : evictLRUAux b (Nat.succ fuel) l =
        if (totalSize l : Int) ≤ b ∨ l.length ≤ 1 then l
        else evictLRUAux b fuel l.dropLast := rfl
    by_cases h : (totalSize l : Int) ≤ b ∨ l.length ≤ 1
    · rw [hstep, if_pos h] at hlt
      omega
    · rw [hstep, if_neg h] at hlt ⊢
      push_neg at h
      have hdl : l.dropLast.length ≤ fuel := by
        simp only [List.length_dropLast]
        omega
      have hle : (evictLRUAux b fuel l.dropLast).length ≤ l.dropLast.length :=
        evictLRUAux_length_le b fuel l.dropLast
      rw [List.length_dropLast] at hle
      by_cases hcase : (evictLRUAux b fuel l.dropLast).length < l.dropLast.length
      · have := ih l.dropLast hdl hcase
        rw [take_dropLast_eq l _ ?_] at this
        · exact this
        · rw [List.length_dropLast] at hcase
          omega
      · push_neg at hcase
        rw [List.length_dropLast] at hcase
        have hlen : (evictLRUAux b fuel l.dropLast).length + 1 = l.length := by omega
        rw [hlen, List.take_length]
        exact h.1

/-- A first match found in an initial segment is the first match of the
whole list. -/
theorem find?_of_find?_take {α : Type} {p : α → Bool} :
    ∀ (l : List α) (n : Nat) (x : α),
      (l.take n).find? p = some x → l.find? p = some x := by
  intro l
  induction l with
  | nil =>
    intro n x hx
    simp at hx
  | cons a t ih =>
    intro n x hx
    cases n with
    | zero => simp at hx
    | succ m =>
      rw [List.take_succ_cons] at hx
      by_cases hpa : p a = true
      · rw [List.find?_cons_of_pos _ hpa] at hx ⊢
        exact hx
      · rw [List.find?_cons_of_neg _ (by simp [hpa])] at hx ⊢
        exact ih m x hx

/-- A first `p`-match found among the `q`-survivors of a filter is the first
`p`-match of the whole list, provided `p` entails `q`. -/
theorem find?_of_find?_filter {α : Type} {p q : α → Bool}
    (himp : ∀ a, p a = true → q a = true) :
    ∀ (l : List α) (x : α),
      (l.filter q).find? p = some x → l.find? p = some x := by
  intro l
  induction l with
  | nil =>
    intro x hx
    simp at hx
  | cons a t ih =>
    intro x hx
    by_cases hq : q a = true
    · rw [List.filter_cons_of_pos hq] at hx
      by_cases hpa : p a = true
      · rw [List.find?_cons_of_pos _ hpa] at hx ⊢
        exact hx
      · rw [List.find?_cons_of_neg _ (by simp [hpa])] at hx ⊢
        exact ih x hx
    · rw [List.filter_cons_of_neg (by simp [hq])] at hx
      have hpa : ¬p a = true := fun hc => hq (himp a hc)
      rw [List.find?_cons_of_neg _ (by simp [hpa])]
      exact ih x hx

/-- A hit returns exactly the found entry's stored payload. -/
theorem lookup_fst_of_find? (k : List Nat) (c : MemoCache) (e : CacheEntry)
    (h : c.entries.find? (fun x => x.key = k) = some e) :
    (halide_memoization_cache_lookup k c).1 = some e.data := by
  unfold halide_memoization_cache_lookup
  rw [h]

/-- When no entry matches the key, lookup misses and leaves the cache
unchanged. -/
theorem lookup_of_find?_none (k : List Nat) (c : MemoCache)
    (h : c.entries.find? (fun x => x.key = k) = none) :
    halide_memoization_cache_lookup k c = (none, c) := by
  unfold halide_memoization_cache_lookup
  rw [h]

/-- The entry list produced by a store is an initial segment of the new
entry followed by the surviving prior entries, and the new entry is its
head. -/
theorem store_entries_take (c : MemoCache) (k : List Nat) (d : List (List Nat)) :
    ∃ m : Nat,
      (halide_memoization_cache_store k d c).entries =
        (⟨k, d, entrySize d⟩ : CacheEntry) ::
          (c.entries.filter (fun x => ¬(x.key = k))).take m := by
  obtain ⟨n, hn1, hn2, heq⟩ :=
    evictLRUAux_eq_take c.budget
      ((⟨k, d, entrySize d⟩ : CacheEntry) ::
        c.entries.filter (fun x => ¬(x.key = k))).length
      ((⟨k, d, entrySize d⟩ : CacheEntry) ::
        c.entries.filter (fun x => ¬(x.key = k)))
      (le_refl _) (by simp)
  obtain ⟨m, rfl⟩ : ∃ m, n = m + 1 := ⟨n - 1, by omega⟩
  rw [List.take_succ_cons] at heq
  exact ⟨m, heq⟩

/-- C4: `store(K, D)` followed by `lookup(K)` hits and fills the outputs
with the copy of `D` taken at store time (the entry holds a copy, so the
caller mutating its own buffers afterwards cannot affect it); an
intervening store under any other key either evicts `K` (lookup misses) or
leaves the hit data unchanged; and `lookup` on a key that was never stored
misses and leaves the cache (and the caller's output buffers) untouched. -/
theorem cache_store_lookup_roundtrip (c : MemoCache) (k k' : List Nat)
    (d : List (List Nat)) (hk' : k' ∉ c.entries.map CacheEntry.key) :
    (halide_memoization_cache_lookup k (halide_memoization_cache_store k d c)).1 =
      some d ∧
    (∀ (c₂ : MemoCache) (k2 : List Nat) (d2 : List (List Nat)) (e : CacheEntry)
        (d'' : List (List Nat)), k2 ≠ k →
      c₂.entries.find? (fun x => x.key = k) = some e →
      (halide_memoization_cache_lookup k
        (halide_memoization_cache_store k2 d2 c₂)).1 = some d'' →
      d'' = e.data) ∧
    (halide_memoization_cache_lookup k' c).1 = none ∧
    (halide_memoization_cache_lookup k' c).2 = c := by
  refine ⟨?_, ?_, ?_, ?_⟩
  · obtain ⟨m, hm⟩ := store_entries_take c k d
    have hfind : (halide_memoization_cache_store k d c).entries.find?
        (fun x => x.key = k) = some ⟨k, d, entrySize d⟩ := by
      rw [hm]
      exact List.find?_cons_of_pos _ (by simp)
    exact lookup_fst_of_find? k _ _ hfind
  · intro c₂ k2 d2 e d'' hk2 hfound hlook
    rcases hfind : (halide_memoization_cache_store k2 d2 c₂).entries.find?
        (fun x => x.key = k) with _ | ex
    · rw [lookup_of_find?_none k _ hfind] at hlook
      simp at hlook
    · rw [lookup_fst_of_find? k _ ex hfind] at hlook
      obtain ⟨m, hm⟩ := store_entries_take c₂ k2 d2
      rw [hm] at hfind
      rw [List.find?_cons_of_neg _ (by simp [hk2])] at hfind
      have hfind2 := find?_of_find?_take _ m ex hfind
      have hfind3 := find?_of_find?_filter
        (p := fun x : CacheEntry => x.key = k)
        (q := fun x : CacheEntry => ¬(x.key = k2))
        (by
          intro a ha
          simp only [decide_eq_true_eq] at ha ⊢
          rw [ha]
          exact fun hc => hk2 hc.symm)
        c₂.entries ex hfind2
      have hxe : ex = e := Option.some_injective _ (hfind3.symm.trans hfound)
      have hlook2 : ex.data = d'' := Option.some_injective _ hlook
      rw [← hlook2, hxe]
  · have hnone : c.entries.find? (fun x => x.key = k') = none := by
      rw [List.find?_eq_none]
      intro x hx
      simp only [decide_eq_true_eq]
      intro hkey
      exact hk' (hkey ▸ List.mem_map_of_mem CacheEntry.key hx)
    rw [lookup_of_find?_none k' c hnone]
  · have hnone : c.entries.find? (fun x => x.key = k') = none := by
      rw [List.find?_eq_none]
      intro x hx
      simp only [decide_eq_true_eq]
      intro hkey
      exact hk' (hkey ▸ List.mem_map_of_mem CacheEntry.key hx)
    rw [lookup_of_find?_none k' c hnone]

/-- Witness for C4 on an empty cache with budget 100: store key `[1]` with
payload `[[3, 4]]`, then look it up. -/
theorem cache_store_lookup_roundtrip_witness :
    (halide_memoization_cache_lookup [1]
      (halide_memoization_cache_store [1] [[3, 4]] ⟨[], 100⟩)).1 = some [[3, 4]] :=
  (cache_store_lookup_roundtrip ⟨[], 100⟩ [1] [2] [[3, 4]] (by decide)).1

/-- Counterexample to C5 as stated: with budget `B = 10`, storing a single
11-byte entry into an empty cache leaves 11 resident bytes at rest (the
store has completed), exceeding the budget non-transiently — eviction stops
when only the newly inserted entry remains, even though it alone exceeds
the budget. -/
theorem cache_budget_overshoot_counterexample :
    (10 : Int) <
      (totalSize (halide_memoization_cache_store [1]
        [[0, 0, 0, 0, 0, 0, 0, 0, 0, 0, 0]] ⟨[], 10⟩).entries : Int) ∧
    (halide_memoization_cache_store [1]
        [[0, 0, 0, 0, 0, 0, 0, 0, 0, 0, 0]] ⟨[], 10⟩).budget = 10 := by
  constructor
  · decide
  · decide

/-- C5 (amended): after a store under budget `B`, the surviving entries are
an initial segment of the recency order (new entry first, so everything
evicted was least-recently-accessed, recency being refreshed by both lookup
and store); afterwards either the resident total is within `B` or only the
newly inserted entry remains (whose lone size may exceed `B`); nothing is
evicted while the total is within `B`; and eviction stops as soon as the
total is within `B`: had it stopped one entry earlier, the budget would
still be exceeded. -/
theorem cache_store_budget_lru (c : MemoCache) (k : List Nat)
    (d : List (List Nat)) :
    ∃ n, 1 ≤ n ∧
      n ≤ ((⟨k, d, entrySize d⟩ : CacheEntry) ::
        c.entries.filter (fun x => ¬(x.key = k))).length ∧
      (halide_memoization_cache_store k d c).entries =
        ((⟨k, d, entrySize d⟩ : CacheEntry) ::
          c.entries.filter (fun x => ¬(x.key = k))).take n ∧
      ((totalSize (halide_memoization_cache_store k d c).entries : Int) ≤ c.budget ∨
        (halide_memoization_cache_store k d c).entries =
          [(⟨k, d, entrySize d⟩ : CacheEntry)]) ∧
      ((totalSize ((⟨k, d, entrySize d⟩ : CacheEntry) ::
          c.entries.filter (fun x => ¬(x.key = k))) : Int) ≤ c.budget →
        (halide_memoization_cache_store k d c).entries =
          (⟨k, d, entrySize d⟩ : CacheEntry) ::
            c.entries.filter (fun x => ¬(x.key = k))) ∧
      ((halide_memoization_cache_store k d c).entries.length <
          ((⟨k, d, entrySize d⟩ : CacheEntry) ::
            c.entries.filter (fun x => ¬(x.key = k))).length →
        c.budget <
          (totalSize (((⟨k, d, entrySize d⟩ : CacheEntry) ::
            c.entries.filter (fun x => ¬(x.key = k))).take
              ((halide_memoization_cache_store k d c).entries.length + 1)) : Int)) := by
  obtain ⟨n, hn1, hn2, heq⟩ :=
    evictLRUAux_eq_take c.budget
      ((⟨k, d, entrySize d⟩ : CacheEntry) ::
        c.entries.filter (fun x => ¬(x.key = k))).length
      ((⟨k, d, entrySize d⟩ : CacheEntry) ::
        c.entries.filter (fun x => ¬(x.key = k)))
      (le_refl _) (by simp)
  have hentries : (halide_memoization_cache_store k d c).entries =
      ((⟨k, d, entrySize d⟩ : CacheEntry) ::
        c.entries.filter (fun x => ¬(x.key = k))).take n := heq
  refine ⟨n, hn1, hn2, hentries, ?_, ?_, ?_⟩
  · have hpost := evictLRUAux_post c.budget
      ((⟨k, d, entrySize d⟩ : CacheEntry) ::
        c.entries.filter (fun x => ¬(x.key = k))).length
      ((⟨k, d, entrySize d⟩ : CacheEntry) ::
        c.entries.filter (fun x => ¬(x.key = k)))
      (le_refl _)
    rcases hpost with hpost | hpost
    · exact Or.inl hpost
    · right
      have hlen : (halide_memoization_cache_store k d c).entries.length ≤ 1 := hpost
      rw [hentries] at hlen ⊢
      rw [List.length_take] at hlen
      have hminn := Nat.min_eq_left hn2
      have hn : n = 1 := by omega
      rw [hn, List.take_succ_cons, List.take_zero]
  · intro hle
    exact evictLRUAux_no_evict c.budget _ _ hle
  · intro hlt
    exact evictLRUAux_minimal c.budget
      ((⟨k, d, entrySize d⟩ : CacheEntry) ::
        c.entries.filter (fun x => ¬(x.key = k))).length
      ((⟨k, d, entrySize d⟩ : CacheEntry) ::
        c.entries.filter (fun x => ¬(x.key = k)))
      (le_refl _) hlt

/-! ## Buffer / device memory manager

`buffer_t` (`HalideRuntime.h`, lines 312-353) and the device operations
`halide_device_malloc`, `halide_copy_to_device`, `halide_copy_to_host`,
`halide_device_sync`, `halide_device_free` (lines 213-235). -/

/-- Error categories of the memory manager (spec section 7): a *binding*
error when no consistent device interface is resolvable, a *state* error
when the operation is invalid for the descriptorʼs current state. -/
inductive MemErr where
  | binding
  | state
deriving DecidableEq

/-- The `buffer_t` descriptor as the memory manager sees it.  `dev` is the
device handle: `none` models a zero handle (unbound); `some i` models a
non-zero handle owned by device interface `i`.  `host` and `devData` are
the element contents on each side; `host_dirty` and `dev_dirty` are the
two dirty flags of `buffer_t`. -/
structure ModelBuffer where
  dev : Option Nat
  host : List Int
  devData : List Int
  host_dirty : Bool
  dev_dirty : Bool
deriving DecidableEq

/-- Modelled from the spec: the device runtime (`device_interface.cpp`) is
not in the source tree.  `halide_device_malloc` asks the interface to
allocate and binds the handle; a handle already bound to a *different*
interface is a binding error, and an allocation already bound to the same
interface is kept. -/
def halide_device_malloc (iface : Nat) (b : ModelBuffer) :
    Except MemErr ModelBuffer :=
  match b.dev with
  | none => .ok { b with dev := some iface }
  | some j => if j = iface then .ok b else .error .binding

/-- The transfer step of `copy_to_device`: data moves host-to-device only
when the host side is dirty, and the host-dirty flag is cleared on
success. -/
def transferToDevice (b : ModelBuffer) : ModelBuffer :=
  if b.host_dirty then { b with devData := b.host, host_dirty := false } else b

/-- Modelled from the spec and the header doc: "If interface is NULL and
the buf has a non-zero dev field, the device associated with the dev handle
will be used. Otherwise if the dev field is 0 and interface is NULL, an
error is returned."  With an interface supplied and the buffer unbound,
device storage is allocated lazily; with both present they must agree. -/
def halide_copy_to_device (iface : Option Nat) (b : ModelBuffer) :
    Except MemErr ModelBuffer :=
  match iface, b.dev with
  | none, none => .error .binding
  | none, some _ => .ok (transferToDevice b)
  | some i, none => .ok (transferToDevice { b with dev := some i })
  | some i, some j =>
      if i = j then .ok (transferToDevice b) else .error .binding

/-- Modelled from the spec: `halide_copy_to_host` requires a bound device
handle; it transfers only when the device side is dirty and clears the
device-dirty flag on success. -/
def halide_copy_to_host (b : ModelBuffer) : Except MemErr ModelBuffer :=
  match b.dev with
  | none => .error .state
  | some _ =>
      .ok (if b.dev_dirty then { b with host := b.devData, dev_dirty := false } else b)

/-- Modelled from the spec: `halide_device_sync` blocks until outstanding
device operations finish; it changes no descriptor state. -/
def halide_device_sync (b : ModelBuffer) : Except MemErr ModelBuffer :=
  .ok b

/-- Modelled from the spec: `halide_device_free` releases the device
allocation, clears the handle and both dirty flags; it is a no-op when
already unbound. -/
def halide_device_free (b : ModelBuffer) : Except MemErr ModelBuffer :=
  .ok { b with dev := none, host_dirty := false, dev_dirty := false }

/-- A device-side kernel writing to the buffer: the device contents change
and the device-dirty flag is raised.  This is the callerʼs (generated
codeʼs) action, not a memory-manager operation. -/
def deviceWrite (w : List Int) (b : ModelBuffer) : ModelBuffer :=
  { b with devData := w, dev_dirty := true }

/-- The at-rest invariant of `buffer_t`: at most one of the two dirty flags
is raised. -/
def atRestConsistent (b : ModelBuffer) : Prop :=
  ¬(b.host_dirty = true ∧ b.dev_dirty = true)

/-- C6: every memory-manager operation (allocate, copy_to_device,
copy_to_host, sync, free) preserves the at-rest invariant that host-dirty
and device-dirty are never both raised outside the duration of a single
transfer call. -/
theorem buffer_dirty_invariant_preserved (b b' : ModelBuffer)
    (hb : atRestConsistent b) :
    (∀ i, halide_device_malloc i b = .ok b' → atRestConsistent b') ∧
    (∀ i, halide_copy_to_device i b = .ok b' → atRestConsistent b') ∧
    (halide_copy_to_host b = .ok b' → atRestConsistent b') ∧
    (halide_device_sync b = .ok b' → atRestConsistent b') ∧
    (halide_device_free b = .ok b' → atRestConsistent b') := by
  unfold atRestConsistent at hb ⊢
  obtain ⟨dev, host, devd, hd, dd⟩ := b
  refine ⟨?_, ?_, ?_, ?_, ?_⟩
  · intro i h
    rcases dev with _ | j
    · simp only [halide_device_malloc] at h
      injection h with h
      subst h
      exact hb
    · by_cases hij : j = i
      · simp only [halide_device_malloc, hij, if_true] at h
        injection h with h
        subst h
        exact hb
      · simp only [halide_device_malloc, hij, if_false] at h
        cases h
  · intro i h
    rcases i with _ | i0 <;> rcases dev with _ | j <;>
      simp only [halide_copy_to_device] at h
    · cases h
    · injection h with h
      subst h
      simp only [transferToDevice]
      cases hd <;> simp_all
    · injection h with h
      subst h
      simp only [transferToDevice]
      cases hd <;> simp_all
    · by_cases hij : i0 = j
      · simp only [hij, if_true] at h
        injection h with h
        subst h
        simp only [transferToDevice]
        cases hd <;> simp_all
      · simp only [hij, if_false] at h
        cases h
  · intro h
    rcases dev with _ | j <;> simp only [halide_copy_to_host] at h
    · cases h
    · injection h with h
      subst h
      cases dd <;> simp_all
  · intro h
    injection h with h
    subst h
    exact hb
  · intro h
    injection h with h
    subst h
    simp

/-- Witness for C6: freeing a clean bound buffer keeps the invariant. -/
theorem buffer_dirty_invariant_preserved_witness :
    atRestConsistent (⟨none, [1], [2], false, false⟩ : ModelBuffer) :=
  (buffer_dirty_invariant_preserved
      (⟨some 0, [1], [2], false, false⟩ : ModelBuffer)
      (⟨none, [1], [2], false, false⟩ : ModelBuffer)
      (by intro hc; exact absurd hc.1 (by decide))).2.2.2.2 rfl

/-- C7: with host data `H`, host-dirty set and a bound device handle,
`copy_to_device` followed by `copy_to_host` with no intervening device-side
write leaves the host data equal to `H`; with an intervening device-side
write (which sets device-dirty), the subsequent `copy_to_host` leaves the
host data reflecting that write. -/
theorem copy_roundtrip_reflects_device (b : ModelBuffer) (j : Nat)
    (hdev : b.dev = some j) (hhd : b.host_dirty = true)
    (hdd : b.dev_dirty = false) :
    (∃ b₁ b₂, halide_copy_to_device none b = .ok b₁ ∧
      halide_copy_to_host b₁ = .ok b₂ ∧ b₂.host = b.host) ∧
    (∀ w, ∃ b₁ b₃, halide_copy_to_device none b = .ok b₁ ∧
      halide_copy_to_host (deviceWrite w b₁) = .ok b₃ ∧ b₃.host = w) := by
  obtain ⟨dev, host, devd, hd, dd⟩ := b
  change dev = some j at hdev
  change hd = true at hhd
  change dd = false at hdd
  subst hdev
  subst hhd
  subst hdd
  constructor
  · exact ⟨_, _, rfl, rfl, rfl⟩
  · intro w
    exact ⟨_, _, rfl, rfl, rfl⟩

/-- Witness for C7: a bound, host-dirty buffer with host data `[1, 2]`
round-trips that data. -/
theorem copy_roundtrip_reflects_device_witness :
    ∃ b₁ b₂,
      halide_copy_to_device none
        (⟨some 0, [1, 2], [0, 0], true, false⟩ : ModelBuffer) = .ok b₁ ∧
      halide_copy_to_host b₁ = .ok b₂ ∧ b₂.host = [1, 2] :=
  (copy_roundtrip_reflects_device
    (⟨some 0, [1, 2], [0, 0], true, false⟩ : ModelBuffer) 0 rfl rfl rfl).1

/-- C8: `copy_to_device` resolves its interface exactly as documented: with
no interface and a zero handle it is a binding error; with no interface and
a bound handle it uses the interface bound to that handle (the handle is
kept); with an interface and an unbound buffer it allocates lazily (binds
the handle); and on any success the transfer happened only if host-dirty
was set (otherwise device data is untouched), with host-dirty clear
afterwards. -/
theorem copy_to_device_binding_rules (b : ModelBuffer) :
    (b.dev = none → halide_copy_to_device none b = .error .binding) ∧
    (∀ j, b.dev = some j →
      halide_copy_to_device none b = .ok (transferToDevice b) ∧
      (transferToDevice b).dev = some j) ∧
    (∀ i, b.dev = none →
      halide_copy_to_device (some i) b =
        .ok (transferToDevice { b with dev := some i }) ∧
      (transferToDevice { b with dev := some i }).dev = some i) ∧
    (∀ i b', halide_copy_to_device i b = .ok b' →
      b'.host_dirty = false ∧
      (b.host_dirty = true → b'.devData = b.host) ∧
      (b.host_dirty = false → b'.devData = b.devData ∧ b'.host = b.host)) := by
  obtain ⟨dev, host, devd, hd, dd⟩ := b
  refine ⟨?_, ?_, ?_, ?_⟩
  · intro h
    change dev = none at h
    subst h
    rfl
  · intro j h
    change dev = some j at h
    subst h
    refine ⟨rfl, ?_⟩
    unfold transferToDevice
    cases hd <;> rfl
  · intro i h
    change dev = none at h
    subst h
    refine ⟨rfl, ?_⟩
    unfold transferToDevice
    cases hd <;> rfl
  · intro i b' h
    rcases i with _ | i0 <;> rcases dev with _ | j <;>
      simp only [halide_copy_to_device] at h
    · cases h
    · injection h with h
      subst h
      cases hd <;> simp [transferToDevice]
    · injection h with h
      subst h
      cases hd <;> simp [transferToDevice]
    · by_cases hij : i0 = j
      · simp only [hij, if_true] at h
        injection h with h
        subst h
        cases hd <;> simp [transferToDevice]
      · simp only [hij, if_false] at h
        cases h

/-! ## Trace emitter

`halide_trace_event_code`, `halide_trace_event` and `halide_trace`
(`HalideRuntime.h`, lines 129-182). -/

/-- The eight trace event kinds of `halide_trace_event_code`. -/
inductive halide_trace_event_code where
  | trace_load
  | trace_store
  | trace_begin_realization
  | trace_end_realization
  | trace_produce
  | trace_update
  | trace_consume
  | trace_end_consume
deriving DecidableEq

/-- The `halide_trace_event` record: function name, event kind, parent id,
type code, bit width, vector width, value-slot index, value payload,
dimensionality and coordinate vector. -/
structure halide_trace_event where
  func : String
  event : halide_trace_event_code
  parent_id : Int
  type_code : Int
  bits : Int
  vector_width : Int
  value_index : Int
  value : List Int
  dimensions : Int
  coordinates : List Int
deriving DecidableEq

/-- The per-session state of the trace emitter: the next identifier to hand
out and the recorded `(id, event)` stream, newest first. -/
structure TraceState where
  next_id : Int
  log : List (Int × halide_trace_event)
deriving DecidableEq

/-- Modelled from the spec: the tracing implementation (`tracing.cpp`) is
not in the source tree.  `halide_trace` assigns the next fresh identifier
to the event, records it (storing, not validating, the supplied parent
link), and returns the identifier. -/
def halide_trace (ev : halide_trace_event) (st : TraceState) :
    Int × TraceState :=
  (st.next_id, ⟨st.next_id + 1, (st.next_id, ev) :: st.log⟩)

/-- Modelled from the spec: a session starts with identifier 1, so 0 is
never handed out. -/
def initialTraceState : TraceState := ⟨1, []⟩

/-- Emitting a sequence of events, threading the session state; returns the
identifiers handed out in order, plus the final state.  A concurrent set of
`emit` calls is modelled by its (arbitrary) interleaving into one such
sequence, each call being atomic. -/
def emitAll (evs : List halide_trace_event) (st : TraceState) :
    List Int × TraceState :=
  match evs with
  | [] => ([], st)
  | e :: es =>
      let r := halide_trace e st
      let rs := emitAll es r.2
      (r.1 :: rs.1, rs.2)

/-- After a batch of emits the session's next identifier has advanced by
the batch length. -/
theorem emitAll_next_id (evs : List halide_trace_event) :
    ∀ st, (emitAll evs st).2.next_id = st.next_id + evs.length := by
  induction evs with
  | nil =>
    intro st
    simp [emitAll]
  | cons e es ih =>
    intro st
    show (emitAll es ⟨st.next_id + 1, (st.next_id, e) :: st.log⟩).2.next_id = _
    rw [ih]
    simp only [List.length_cons]
    push_cast
    ring

/-- The identifiers handed out by a batch of emits are consecutive,
starting at the session's next identifier. -/
theorem emitAll_ids (evs : List halide_trace_event) :
    ∀ st, (emitAll evs st).1 =
      (List.range evs.length).map (fun i : Nat => st.next_id + (i : Int)) := by
  induction evs with
  | nil =>
    intro st
    rfl
  | cons e es ih =>
    intro st
    show st.next_id :: (emitAll es ⟨st.next_id + 1, (st.next_id, e) :: st.log⟩).1 = _
    rw [ih]
    simp only [List.length_cons]
    rw [List.range_succ_eq_map]
    simp only [List.map_cons, List.map_map]
    congr 1
    · simp
    · congr 1
      funext i
      show st.next_id + 1 + (i : Int) = st.next_id + ((i + 1 : Nat) : Int)
      push_cast
      ring

/-- C9: from any session state whose next identifier is at least 1 (as in a
fresh session), every emitted event receives a non-zero identifier, the
identifiers of a batch of emits — a concurrent set of calls modelled by an
arbitrary interleaving, each call atomic — are pairwise distinct, and
identifiers are never reused: any later batch in the same session is
disjoint from the earlier one. -/
theorem trace_ids_fresh_unique (evs evs' : List halide_trace_event)
    (st : TraceState) (h : 1 ≤ st.next_id) :
    (∀ i ∈ (emitAll evs st).1, i ≠ 0) ∧
    (emitAll evs st).1.Nodup ∧
    (∀ i ∈ (emitAll evs st).1, ∀ i' ∈ (emitAll evs' (emitAll evs st).2).1,
      i ≠ i') := by
  refine ⟨?_, ?_, ?_⟩
  · intro i hi
    rw [emitAll_ids] at hi
    rcases List.mem_map.mp hi with ⟨a, ha, rfl⟩
    omega
  · rw [emitAll_ids]
    refine List.Nodup.map ?_ (List.nodup_range _)
    intro a b hab
    simp only at hab
    omega
  · intro i hi i' hi'
    rw [emitAll_ids] at hi hi'
    rw [emitAll_next_id] at hi'
    rcases List.mem_map.mp hi with ⟨a, ha, rfl⟩
    rcases List.mem_map.mp hi' with ⟨a', ha', rfl⟩
    simp only [List.mem_range] at ha ha'
    omega

/-- Witness for C9: two emits from a fresh session get distinct non-zero
identifiers. -/
theorem trace_ids_fresh_unique_witness :
    (emitAll
      [⟨"f", .trace_begin_realization, 0, 0, 32, 1, 0, [7], 1, [0]⟩,
       ⟨"f", .trace_end_realization, 1, 0, 32, 1, 0, [7], 1, [0]⟩]
      initialTraceState).1.Nodup :=
  (trace_ids_fresh_unique
    [⟨"f", .trace_begin_realization, 0, 0, 32, 1, 0, [7], 1, [0]⟩,
     ⟨"f", .trace_end_realization, 1, 0, 32, 1, 0, [7], 1, [0]⟩]
    [] initialTraceState (by decide)).2.1

end HalideRuntime

namespace Lesson05

/-! ## Tutorial lesson 5: `gradient_fast`

`tutorial/lesson_05_scheduling_1.cpp`, lines 399-487.  The algorithm is
`gradient_fast(x, y) = x + y`; the composite schedule (256×256 tiles, fused
tile index, parallel, 4×2 inner tiles, vectorized in x, unrolled in y) is
embedded from the tutorial's own "equivalent C" loop nest that the lesson
checks the realization against. -/

/-- The pure, unscheduled algorithm: `gradient_fast(x, y) = x + y`
(line 402). -/
def gradient_fast (x y : Int) : Int := x + y

/-- The scheduled evaluation order over an 800×600 realization, embedded
from the tutorial's equivalent C loops (lines 436-486): 12 fused tile
indices (`x_outer = tile_index % 4`, `y_outer = tile_index / 4`), 128×64
inner-outer positions, clamped tile bases
`x = min(x_outer*256, 800-256) + x_inner_outer*4` and
`y_base = min(y_outer*256, 600-256) + y_inner_outer*2`, a 2-way unroll in y
and a 4-wide vector in x.  Each element of the list is one store
`(x_vec[i], y, val[i])` with `val[i] = x_vec[i] + y_vec[i]`. -/
def gradientFastWrites : List (Int × Int × Int) :=
  (List.range 12).flatMap (fun ti : Nat =>
    (List.range 128).flatMap (fun yio : Nat =>
      (List.range 64).flatMap (fun xio : Nat =>
        (List.range 2).flatMap (fun yp : Nat =>
          (List.range 4).map (fun i : Nat =>
            (min (((ti : Int) % 4) * 256) (800 - 256) + (xio : Int) * 4 + (i : Int),
             min (((ti : Int) / 4) * 256) (600 - 256) + (yio : Int) * 2 + (yp : Int),
             (min (((ti : Int) % 4) * 256) (800 - 256) + (xio : Int) * 4 + (i : Int)) +
               (min (((ti : Int) / 4) * 256) (600 - 256) + (yio : Int) * 2 +
                 (yp : Int))))))))

/-- Replaying a list of stores `(x, y, v)` in program order over an initial
image. -/
def applyWrites (ws : List (Int × Int × Int)) (f : Int → Int → Int) :
    Int → Int → Int :=
  ws.foldl (fun g w => fun a b => if a = w.1 ∧ b = w.2.1 then w.2.2 else g a b) f

/-- Every store of the scheduled loop nest stores the sum of its own
coordinates (some points are stored more than once, always with the same
value). -/
theorem gradientFastWrites_val (w : Int × Int × Int)
    (hw : w ∈ gradientFastWrites) : w.2.2 = w.1 + w.2.1 := by
  simp only [gradientFastWrites, List.mem_flatMap, List.mem_map, List.mem_range] at hw
  obtain ⟨ti, _, yio, _, xio, _, yp, _, i, _, rfl⟩ := hw
  rfl

/-- Replaying stores computes the common value written at a point, provided
some store hits the point and all stores hitting it agree on that value. -/
theorem applyWrites_eq {x y v : Int} :
    ∀ (ws : List (Int × Int × Int)) (f : Int → Int → Int),
      (f x y = v ∨ (x, y, v) ∈ ws) →
      (∀ w ∈ ws, w.1 = x → w.2.1 = y → w.2.2 = v) →
      applyWrites ws f x y = v := by
  intro ws
  induction ws with
  | nil =>
    intro f hf huniq
    rcases hf with hf | hf
    · exact hf
    · simp at hf
  | cons w tl ih =>
    intro f hf huniq
    show applyWrites tl (fun a b => if a = w.1 ∧ b = w.2.1 then w.2.2 else f a b) x y = v
    refine ih _ ?_ (fun u hu => huniq u (List.mem_cons_of_mem w hu))
    by_cases hc : x = w.1 ∧ y = w.2.1
    · left
      rw [if_pos hc]
      exact huniq w (List.mem_cons_self w tl) hc.1.symm hc.2.symm
    · rcases hf with hf | hf
      · left
        rw [if_neg hc]
        exact hf
      · rcases List.mem_cons.mp hf with hf | hf
        · exfalso
          apply hc
          rw [← hf]
          exact ⟨rfl, rfl⟩
        · right
          exact hf

/-- Every point of the 800×600 realization is stored by the scheduled loop
nest: the clamped tile bases `{0, 256, 512, 544}` in x and `{0, 256, 344}`
in y cover `[0, 800)` and `[0, 600)` even though neither extent is a
multiple of 256. -/
theorem gradientFastWrites_cover (x y : Int) (hx : 0 ≤ x ∧ x < 800)
    (hy : 0 ≤ y ∧ y < 600) : (x, y, x + y) ∈ gradientFastWrites := by
  obtain ⟨hx0, hx1⟩ := hx
  obtain ⟨hy0, hy1⟩ := hy
  simp only [gradientFastWrites, List.mem_flatMap, List.mem_map, List.mem_range]
  by_cases hx7 : x < 768 <;> by_cases hy5 : y < 512
  · refine ⟨4 * (y.toNat / 256) + x.toNat / 256, by omega,
      y.toNat % 256 / 2, by omega, x.toNat % 256 / 4, by omega,
      y.toNat % 256 % 2, by omega, x.toNat % 256 % 4, by omega, ?_⟩
    simp only [Prod.mk.injEq]
    refine ⟨by omega, by omega, by omega⟩
  · refine ⟨4 * 2 + x.toNat / 256, by omega,
      (y.toNat - 344) / 2, by omega, x.toNat % 256 / 4, by omega,
      (y.toNat - 344) % 2, by omega, x.toNat % 256 % 4, by omega, ?_⟩
    simp only [Prod.mk.injEq]
    refine ⟨by omega, by omega, by omega⟩
  · refine ⟨4 * (y.toNat / 256) + 3, by omega,
      y.toNat % 256 / 2, by omega, (x.toNat - 544) / 4, by omega,
      y.toNat % 256 % 2, by omega, (x.toNat - 544) % 4, by omega, ?_⟩
    simp only [Prod.mk.injEq]
    refine ⟨by omega, by omega, by omega⟩
  · refine ⟨11, by omega,
      (y.toNat - 344) / 2, by omega, (x.toNat - 544) / 4, by omega,
      (y.toNat - 344) % 2, by omega, (x.toNat - 544) % 4, by omega, ?_⟩
    simp only [Prod.mk.injEq]
    refine ⟨by omega, by omega, by omega⟩

/-- C10: the composite schedule does not change computed values — replaying
the scheduled loop nest's stores over any initial image yields
`gradient_fast x y = x + y` at every coordinate of the 800×600 region, even
though the region is not a multiple of the tile size and clamping makes
some points evaluate more than once. -/
theorem gradient_fast_schedule_agrees (init : Int → Int → Int) (x y : Int)
    (hx : 0 ≤ x ∧ x < 800) (hy : 0 ≤ y ∧ y < 600) :
    applyWrites gradientFastWrites init x y = gradient_fast x y := by
  have hcov : (x, y, x + y) ∈ gradientFastWrites :=
    gradientFastWrites_cover x y hx hy
  refine applyWrites_eq gradientFastWrites init (Or.inr hcov) ?_
  intro w hw h1 h2
  have hval := gradientFastWrites_val w hw
  rw [hval, h1, h2]
  rfl

/-- Witness for C10 at the coordinate `(3, 5)` over a zero-initialized
image. -/
theorem gradient_fast_schedule_agrees_witness :
    applyWrites gradientFastWrites (fun _ _ => 0) 3 5 = gradient_fast 3 5 :=
  gradient_fast_schedule_agrees (fun _ _ => 0) 3 5 (by decide) (by decide)

end Lesson05
